import Mathlib

/-!
Verification of the shellcraft orchestration engine.

Each section shallowly embeds one part of the Rust source (src/fsutil.rs,
src/runner.rs, src/planner.rs, src/llm.rs, src/main.rs) as executable Lean
definitions and proves the spec's claims about it.  File contents and
command strings are modelled as `List Char` (bytes), filesystem paths as a
directory-component list plus a file name, and the filesystem itself as a
map from paths to optional contents.  OS primitives (directory creation,
file write, rename) can fail; failures are driven by explicit oracle
parameters so that the error-path behaviour of the code is provable.
-/

set_option maxHeartbeats 1000000

namespace Shellcraft

/-! ## File names and `Path::with_extension`

`fsutil::atomic_write` derives its temporary file as
`path.with_extension("tmp.write")`.  Rust's `with_extension` replaces the
part of the file name after the last `.`; a leading dot (hidden file) does
not start an extension.  We model that splitting on the file-name
character list. -/

/-- Characters of a file name strictly before its last `.`, or `none`
when the name contains no `.` at all. -/
def stemAux : List Char → Option (List Char)
  | [] => none
  | c :: rest =>
    match stemAux rest with
    | some s => some (c :: s)
    | none => if c = '.' then some [] else none

/-- Rust `Path::file_stem` on a file name: everything before the last `.`,
except that a dot in the very first position (hidden file) does not count
as an extension separator. -/
def rustStem (name : List Char) : List Char :=
  match name with
  | [] => []
  | c :: rest =>
    match stemAux rest with
    | some s => c :: s
    | none => name

/-- Rust `path.with_extension("tmp.write")` applied to the file name:
the stem followed by `.tmp.write`. -/
def withTmpWrite (name : List Char) : List Char :=
  rustStem name ++ '.' :: "tmp.write".toList

lemma stemAux_none_no_dot : ∀ {r : List Char}, stemAux r = none → '.' ∉ r := by
  intro r
  induction r with
  | nil => intro _ h; cases h
  | cons c rest ih =>
    intro h
    simp only [stemAux] at h
    cases hr : stemAux rest with
    | some s => rw [hr] at h; cases h
    | none =>
      rw [hr] at h
      by_cases hc : c = '.'
      · simp [hc] at h
      · intro hmem
        rcases List.mem_cons.mp hmem with h1 | h2
        · exact hc h1.symm
        · exact (ih hr) h2

lemma stemAux_some_split : ∀ {r s : List Char}, stemAux r = some s →
    ∃ e, r = s ++ '.' :: e ∧ '.' ∉ e := by
  intro r
  induction r with
  | nil => intro s h; cases h
  | cons c rest ih =>
    intro s h
    simp only [stemAux] at h
    cases hr : stemAux rest with
    | some s' =>
      rw [hr] at h
      obtain ⟨e, he, hne⟩ := ih hr
      cases h
      exact ⟨e, by simp [he], hne⟩
    | none =>
      rw [hr] at h
      by_cases hc : c = '.'
      · simp only [hc, if_pos rfl] at h
        cases h
        exact ⟨rest, by simp [hc], stemAux_none_no_dot hr⟩
      · simp [hc] at h

/-- The temporary file name used by `atomic_write` is never the target
file name itself. -/
lemma withTmpWrite_ne (name : List Char) : withTmpWrite name ≠ name := by
  intro h
  cases name with
  | nil =>
    simp only [withTmpWrite, rustStem] at h
    have := congrArg List.length h
    simp at this
  | cons c rest =>
    cases hr : stemAux rest with
    | none =>
      simp only [withTmpWrite, rustStem, hr] at h
      have := congrArg List.length h
      simp [List.length_append] at this
    | some s =>
      simp only [withTmpWrite, rustStem, hr, List.cons_append] at h
      have hrest : rest = s ++ '.' :: "tmp.write".toList := (List.cons.inj h).2.symm
      obtain ⟨e, he, hne⟩ := stemAux_some_split hr
      rw [he] at hrest
      have : ('.' : Char) :: e = '.' :: "tmp.write".toList :=
        List.append_cancel_left hrest
      have he2 : e = "tmp.write".toList := (List.cons.inj this).2
      apply hne
      rw [he2]
      decide

/-! ## Filesystem model and `fsutil::atomic_write` -/

/-- A path: parent directory components plus the file name. -/
structure FPath where
  dir : List String
  base : List Char
deriving DecidableEq

/-- Filesystem state: maps each path to its contents, `none` when the
file does not exist. -/
def Fs := FPath → Option (List Char)

/-- Point update of a filesystem. -/
def updFs (fs : Fs) (k : FPath) (v : Option (List Char)) : Fs :=
  fun k' => if k' = k then v else fs k'

/-- Failure oracle for the three fallible OS steps of `atomic_write`:
`create_dir_all`, `fs::write` on the temp file, and `fs::rename`.
`partialContent` is what the temp file holds after an interrupted write. -/
structure AwOracle where
  dirOk : Bool
  writeOk : Bool
  renameOk : Bool
  partialContent : Option (List Char)

/-- Result of a modelled filesystem operation: success or error, each
with the resulting filesystem. -/
inductive AwResult where
  | ok (fs : Fs)
  | err (fs : Fs)

/-- The sibling temporary path `path.with_extension("tmp.write")`. -/
def tmpPath (p : FPath) : FPath := ⟨p.dir, withTmpWrite p.base⟩

/-- Model of `fsutil::atomic_write` (src/fsutil.rs:52-59): create parent
directories, write the contents to the sibling temp file, rename the temp
file over the target.  Each step may fail per the oracle; `rename` is
atomic (all-or-nothing). -/
def atomic_write (fs : Fs) (p : FPath) (c : List Char) (o : AwOracle) : AwResult :=
  if o.dirOk = false then .err fs
  else if o.writeOk = false then .err (updFs fs (tmpPath p) o.partialContent)
  else
    let fs1 := updFs fs (tmpPath p) (some c)
    if o.renameOk = false then .err fs1
    else .ok (updFs (updFs fs1 (tmpPath p) none) p (some c))

lemma tmpPath_ne (p : FPath) : tmpPath p ≠ p := by
  intro h
  exact withTmpWrite_ne p.base (congrArg FPath.base h)

lemma updFs_tmp_preserves (fs : Fs) (p : FPath) (v : Option (List Char)) :
    updFs fs (tmpPath p) v p = fs p := by
  unfold updFs
  rw [if_neg]
  intro h
  exact tmpPath_ne p h.symm

/-- C1: if `atomic_write(p, c)` returns Ok then reading `p` afterwards
yields exactly `c`; if it returns an error then the contents of `p` are
identical to their state before the call. -/
theorem atomic_write_contract (fs : Fs) (p : FPath) (c : List Char) (o : AwOracle) :
    (∀ fs', atomic_write fs p c o = .ok fs' → fs' p = some c) ∧
    (∀ fs', atomic_write fs p c o = .err fs' → fs' p = fs p) := by
  unfold atomic_write
  by_cases hd : o.dirOk = false
  · simp only [hd, if_pos rfl]
    constructor
    · intro fs' h; cases h
    · intro fs' h; cases h; rfl
  · simp only [hd, if_neg hd, if_false]
    by_cases hw : o.writeOk = false
    · simp only [hw, if_pos rfl]
      constructor
      · intro fs' h; cases h
      · intro fs' h; cases h
        exact updFs_tmp_preserves fs p o.partialContent
    · simp only [hw, if_false]
      by_cases hr : o.renameOk = false
      · simp only [hr, if_pos rfl]
        constructor
        · intro fs' h; cases h
        · intro fs' h; cases h
          exact updFs_tmp_preserves fs p (some c)
      · simp only [hr, if_false]
        constructor
        · intro fs' h
          cases h
          unfold updFs
          rw [if_pos rfl]
        · intro fs' h; cases h

/-- Witness for C1: on an empty filesystem, a successful atomic write of
`"hello"` to `src/main.rs` is readable back verbatim. -/
theorem atomic_write_contract_witness :
    ∃ fs', atomic_write (fun _ => none) ⟨["src"], "main.rs".toList⟩
        "hello".toList ⟨true, true, true, none⟩ = .ok fs' ∧
      fs' ⟨["src"], "main.rs".toList⟩ = some "hello".toList :=
  ⟨_, rfl, (atomic_write_contract (fun _ => none) ⟨["src"], "main.rs".toList⟩
      "hello".toList ⟨true, true, true, none⟩).1 _ rfl⟩

/-! ## src/runner.rs : guardrails and the retrying command runner

`guard_check` (src/runner.rs:77-119) rejects any command string that
contains a denied substring, then checks the first whitespace token
against an allowlist (prompting the user when `require_confirmation` is
set).  `CommandRunner::run` (src/runner.rs:193-269) calls `guard_check`
first, then honours the global dry-run flag, then retries the spawn up to
`max_retries` additional times.  Spawn outcomes are supplied by an oracle
sequence; the model returns the result together with the number of spawn
attempts made. -/

/-- Rust `str::contains`: `pat` occurs as a contiguous substring of `hay`. -/
def strContains : List Char → List Char → Bool
  | [], pat => pat.isEmpty
  | hay@(_ :: t), pat => pat.isPrefixOf hay || strContains t pat

/-- `DENYLIST` from src/runner.rs:64. -/
def DENYLIST : List (List Char) :=
  ["rm -rf", "sudo", "shutdown", "reboot", "init 0", "poweroff"].map String.toList

/-- `ALLOWLIST` from src/runner.rs:67-70. -/
def ALLOWLIST : List (List Char) :=
  ["cargo", "npm", "pytest", "go", "mvn", "rustfmt", "prettier", "black", "gofmt",
   "clippy", "eslint", "flake8", "git", "grep", "rg"].map String.toList

/-- `command.split_whitespace().next().unwrap_or("")`. -/
def firstToken (cmd : List Char) : List Char :=
  (cmd.dropWhile Char.isWhitespace).takeWhile (fun c => !c.isWhitespace)

/-- The `io::ErrorKind::PermissionDenied` errors `guard_check` can raise. -/
inductive GuardErr where
  /-- "Command contains denied pattern pat". -/
  | deniedPattern (pat : List Char)
  /-- "User declined execution of non-allowlisted command". -/
  | userDeclined
  /-- "Command cmd is not in the allowlist". -/
  | notAllowlisted (cmd : List Char)
deriving DecidableEq

/-- Model of `guard_check` (src/runner.rs:77-119).  `resp` is the user's
confirmation line, already trimmed and lowercased as the source does. -/
def guard_check (requireConfirmation : Bool) (resp : List Char)
    (command : List Char) : Except GuardErr Unit :=
  match DENYLIST.find? (fun bad => strContains command bad) with
  | some bad => .error (.deniedPattern bad)
  | none =>
    let isAllowed := ALLOWLIST.any (fun good => good = firstToken command)
    if !isAllowed then
      if requireConfirmation then
        if resp ≠ "y".toList ∧ resp ≠ "yes".toList then .error .userDeclined
        else .ok ()
      else .error (.notAllowlisted command)
    else .ok ()

/-- Outcome of one `Command::new("sh").arg("-c").arg(command).output()`. -/
inductive SpawnOutcome where
  /-- The process ran; `success` is `status.success()`. -/
  | spawned (success : Bool) (stdout : List Char)
  /-- I/O error: the process could not be spawned. -/
  | spawnErr

/-- Result of `CommandRunner::run`. -/
inductive RunnerRes where
  | ok (stdout : List Char)
  | guardErr (e : GuardErr)
  /-- all retry attempts exhausted. -/
  | failed
deriving DecidableEq

/-- Retry policy of `CommandRunner` (src/runner.rs:163-176). -/
structure CommandRunner where
  maxRetries : Nat
  baseDelayMs : Nat

/-- The retry loop of `CommandRunner::run` (src/runner.rs:205-268);
returns the result and the number of spawn attempts. -/
def runLoop (outcomes : Nat → SpawnOutcome) (maxRetries attempt : Nat) :
    RunnerRes × Nat :=
  match outcomes attempt with
  | .spawned true out => (.ok out, attempt + 1)
  | _ =>
    if _h : attempt ≥ maxRetries then (.failed, attempt + 1)
    else runLoop outcomes maxRetries (attempt + 1)
termination_by maxRetries + 1 - attempt
decreasing_by omega

/-- Model of `CommandRunner::run` (src/runner.rs:193-269): guardrail
check before any attempt, then the dry-run short-circuit, then the spawn
loop.  Second component counts spawn attempts. -/
def CommandRunner.run (r : CommandRunner) (requireConfirmation : Bool)
    (resp : List Char) (dryRun : Bool) (command : List Char)
    (outcomes : Nat → SpawnOutcome) : RunnerRes × Nat :=
  match guard_check requireConfirmation resp command with
  | .error e => (.guardErr e, 0)
  | .ok _ => if dryRun then (.ok [], 0) else runLoop outcomes r.maxRetries 0

/-- C10: `CommandRunner::run` never executes a command string containing
a denied substring: the guardrail returns a PermissionDenied-style error
and zero spawn attempts are made, whatever the `require_confirmation`
flag, the user's answer, the dry-run flag, the retry policy and the spawn
oracle — and the denied text may sit anywhere in the string, including
inside an argument or filename. -/
theorem run_denied_substring_never_spawns (r : CommandRunner)
    (requireConfirmation : Bool) (resp : List Char) (dryRun : Bool)
    (command : List Char) (outcomes : Nat → SpawnOutcome) (bad : List Char)
    (hbad : bad ∈ DENYLIST) (hsub : strContains command bad = true) :
    ∃ pat, pat ∈ DENYLIST ∧ strContains command pat = true ∧
      r.run requireConfirmation resp dryRun command outcomes =
        (.guardErr (.deniedPattern pat), 0) := by
  unfold CommandRunner.run guard_check
  cases hfind : DENYLIST.find? (fun bad => strContains command bad) with
  | none =>
    exfalso
    have := List.find?_eq_none.mp hfind bad hbad
    simp [hsub] at this
  | some pat =>
    refine ⟨pat, List.mem_of_find?_eq_some hfind, ?_, rfl⟩
    have := List.find?_some hfind
    simpa using this

/-- Witness for C10: `echo keep-poweroff-note.txt` is blocked with zero
spawns even with confirmation available, a "yes" answer, and dry-run on. -/
theorem run_denied_substring_never_spawns_witness :
    ∃ pat, pat ∈ DENYLIST ∧
      strContains "echo keep-poweroff-note.txt".toList pat = true ∧
      CommandRunner.run ⟨2, 500⟩ true "yes".toList true
          "echo keep-poweroff-note.txt".toList (fun _ => .spawned true []) =
        (.guardErr (.deniedPattern pat), 0) :=
  run_denied_substring_never_spawns ⟨2, 500⟩ true "yes".toList true
    "echo keep-poweroff-note.txt".toList (fun _ => .spawned true [])
    "poweroff".toList (by decide) (by decide)

/-! ## src/runner.rs : the self-healing loop

`run_with_self_healing` (src/runner.rs:1156-1276) re-runs a command via
the given `CommandRunner`; on each failure it bumps `attempt`, returns an
exhaustion error once `attempt > max_heal`, and otherwise gathers the log
and `git diff`, asks the LLM for a patch and tries to apply it — a
failing LLM call or patch application just `continue`s to the next
iteration, so the attempt counter still advances.  The model abstracts
one `runner.run` invocation as one entry of the `results` oracle and
counts those invocations. -/

/-- Result of `run_with_self_healing`. -/
inductive HealRes where
  | ok (out : List Char)
  /-- "Command failed after max_heal self-healing attempts". -/
  | exhausted
deriving DecidableEq

/-- The loop of `run_with_self_healing` starting at a given `attempt`
count.  `results i` is the outcome of the i-th `runner.run` invocation
(`some out` on success); `llmPatch` and `applyOk` model the LLM patch
proposal and `editor::apply_patch` — their outcomes do not alter the
control flow, exactly as the `continue`s in the source.  Returns the
result and the total number of `runner.run` invocations. -/
def healLoop (results : Nat → Option (List Char))
    (llmPatch : Nat → Option (List Char)) (applyOk : List Char → Bool)
    (maxHeal attempt : Nat) : HealRes × Nat :=
  match results attempt with
  | some out => (.ok out, attempt + 1)
  | none =>
    if _h : attempt + 1 > maxHeal then (.exhausted, attempt + 1)
    else
      match llmPatch (attempt + 1) with
      | none => healLoop results llmPatch applyOk maxHeal (attempt + 1)
      | some patch =>
        let _applied := applyOk patch
        healLoop results llmPatch applyOk maxHeal (attempt + 1)
termination_by maxHeal + 1 - attempt
decreasing_by
  all_goals omega

/-- Model of `run_with_self_healing` (src/runner.rs:1156-1276), including
the global dry-run short-circuit. -/
def run_with_self_healing (dryRun : Bool) (results : Nat → Option (List Char))
    (llmPatch : Nat → Option (List Char)) (applyOk : List Char → Bool)
    (maxHeal : Nat) : HealRes × Nat :=
  if dryRun then (.ok [], 0)
  else healLoop results llmPatch applyOk maxHeal 0

lemma healLoop_all_fail (results : Nat → Option (List Char))
    (llmPatch : Nat → Option (List Char)) (applyOk : List Char → Bool)
    (maxHeal : Nat) (hfail : ∀ i, results i = none) :
    ∀ d attempt, attempt ≤ maxHeal → maxHeal - attempt ≤ d →
      healLoop results llmPatch applyOk maxHeal attempt =
        (.exhausted, maxHeal + 1) := by
  intro d
  induction d with
  | zero =>
    intro attempt h1 h2
    have : attempt = maxHeal := by omega
    subst this
    rw [healLoop.eq_def, hfail]
    simp
  | succ d ih =>
    intro attempt h1 h2
    rw [healLoop.eq_def, hfail]
    by_cases hgt : attempt + 1 > maxHeal
    · have : attempt = maxHeal := by omega
      subst this
      simp
    · have hle : attempt + 1 ≤ maxHeal := by omega
      have hrec := ih (attempt + 1) hle (by omega)
      simp only [dif_neg hgt]
      cases hp : llmPatch (attempt + 1) with
      | none => simpa [hp] using hrec
      | some patch => simpa [hp] using hrec

/-- C4: if the command fails on every attempt, the self-healing loop
invokes the command at most `max_heal + 1` times in total, and (outside
dry-run) terminates by returning the error reporting that self-healing
attempts are exhausted — whatever the LLM patches and patch-application
outcomes are, so a failed patch application cannot cause unbounded
retries. -/
theorem run_with_self_healing_exhausts (dryRun : Bool)
    (results : Nat → Option (List Char)) (llmPatch : Nat → Option (List Char))
    (applyOk : List Char → Bool) (maxHeal : Nat)
    (hfail : ∀ i, results i = none) :
    (run_with_self_healing dryRun results llmPatch applyOk maxHeal).2 ≤ maxHeal + 1 ∧
    (dryRun = false →
      run_with_self_healing dryRun results llmPatch applyOk maxHeal =
        (.exhausted, maxHeal + 1)) := by
  unfold run_with_self_healing
  cases dryRun with
  | true =>
    constructor
    · simp
    · intro h; cases h
  | false =>
    have := healLoop_all_fail results llmPatch applyOk maxHeal hfail maxHeal 0
      (Nat.zero_le _) (by omega)
    simp only [if_neg (by simp : ¬ (false = true))]
    constructor
    · rw [this]
    · intro _; exact this

/-- Witness for C4: with `max_heal = 3` and a command that always fails,
exactly 4 invocations happen and the exhaustion error is returned. -/
theorem run_with_self_healing_exhausts_witness :
    run_with_self_healing false (fun _ => none) (fun _ => none)
        (fun _ => false) 3 = (.exhausted, 4) :=
  (run_with_self_healing_exhausts false (fun _ => none) (fun _ => none)
    (fun _ => false) 3 (fun _ => rfl)).2 rfl

/-! ## src/planner.rs : the long-term fact store

`load_memory` (src/planner.rs:297-307) reads `.agent/memory.json`
(missing file ⇒ empty list, unparseable file ⇒ error), `save_memory`
rewrites it, and `record_fact` (src/planner.rs:321-331) appends a fact
only when no entry with the same `(fact, source)` pair exists.  The file
is modelled by its parsed state. -/

/-- A `MemoryFact` entry (src/planner.rs:281-286). -/
structure MemoryFact where
  fact : String
  source : String
deriving DecidableEq

/-- The state of `.agent/memory.json`. -/
inductive MemFile where
  | missing
  | stored (facts : List MemoryFact)
  /-- present but not valid JSON for `Vec<MemoryFact>`. -/
  | corrupt
deriving DecidableEq

/-- Model of `load_memory` (src/planner.rs:297-307). -/
def load_memory : MemFile → Except Unit (List MemoryFact)
  | .missing => .ok []
  | .stored facts => .ok facts
  | .corrupt => .error ()

/-- Model of `record_fact` (src/planner.rs:321-331), returning the state
of `memory.json` after the call (unchanged when loading fails or the
`(fact, source)` pair is already present). -/
def record_fact (m : MemFile) (fact source : String) : MemFile :=
  match load_memory m with
  | .error _ => m
  | .ok facts =>
    if facts.any (fun f => f.fact == fact && f.source == source) then m
    else .stored (facts ++ [⟨fact, source⟩])

/-- C8: recording the same `(fact, source)` pair twice in succession
leaves `memory.json` exactly as it was after the first call — the second
call finds the duplicate and performs no write. -/
theorem record_fact_idempotent (m : MemFile) (fact source : String) :
    record_fact (record_fact m fact source) fact source =
      record_fact m fact source := by
  cases m with
  | corrupt => rfl
  | missing =>
    simp [record_fact, load_memory]
  | stored facts =>
    simp only [record_fact, load_memory]
    by_cases h : facts.any (fun f => f.fact == fact && f.source == source) = true
    · simp [h]
    · simp only [h]
      simp [List.any_append]

/-! ## Short-term memories

Two distinct short-term buffers exist in the source:
`Memory::add_short_term` (src/main.rs:159-166) keeps the last 20 plain
string entries, while the LM session memory `push_memory`
(src/llm.rs:250-269) is a ring buffer of capacity 10 holding
`{role, content}` pairs that augment the LM system prompt. -/

/-- Model of `Memory::add_short_term` (src/main.rs:159-166): push, then
drain everything but the trailing `MAX = 20` entries. -/
def add_short_term (st : List String) (entry : String) : List String :=
  let st' := st ++ [entry]
  if st'.length > 20 then st'.drop (st'.length - 20) else st'

/-- An LM session memory entry (src/llm.rs:252-256). -/
structure MemoryMessage where
  role : String
  content : String
deriving DecidableEq

/-- Model of `push_memory` (src/llm.rs:260-269): when the buffer holds
`MEMORY_CAPACITY = 10` entries, drop the oldest before pushing. -/
def push_memory (mem : List MemoryMessage) (m : MemoryMessage) : List MemoryMessage :=
  if mem.length ≥ 10 then mem.drop 1 ++ [m] else mem ++ [m]

/-- Counterexample to C9: eleven insertions into `Memory::add_short_term`
(the symbol the claim cites) retain all eleven entries — its capacity is
20, not 10. -/
theorem add_short_term_capacity_not_ten :
    10 < (List.foldl add_short_term []
      ["e01", "e02", "e03", "e04", "e05", "e06", "e07", "e08", "e09", "e10",
       "e11"]).length := by
  decide

/-- C9 (amended): `Memory::add_short_term` retains at most the 20 most
recent entries and evicts the oldest when full at 20; the LM session
memory `push_memory` is the capacity-10 ring buffer: it retains at most
10 entries, evicts the oldest exactly when full at 10, and otherwise just
appends. -/
theorem short_term_memory_capacities :
    (∀ (st : List String) (e : String), st.length ≤ 20 →
      (add_short_term st e).length ≤ 20 ∧
      add_short_term st e <:+ st ++ [e] ∧
      (st.length = 20 → add_short_term st e = st.drop 1 ++ [e])) ∧
    (∀ (mem : List MemoryMessage) (m : MemoryMessage), mem.length ≤ 10 →
      (push_memory mem m).length ≤ 10 ∧
      (mem.length = 10 → push_memory mem m = mem.drop 1 ++ [m]) ∧
      (mem.length < 10 → push_memory mem m = mem ++ [m])) := by
  constructor
  · intro st e hst
    unfold add_short_term
    by_cases h : (st ++ [e]).length > 20
    · have hlen : (st ++ [e]).length = st.length + 1 := by simp
      have h20 : st.length = 20 := by omega
      simp only [if_pos h]
      refine ⟨?_, ?_, ?_⟩
      · simp [hlen]; omega
      · exact List.drop_suffix _ _
      · intro _
        rw [hlen, h20]
        simp only [Nat.add_sub_cancel_left]
        rw [List.drop_append_of_le_length (by omega)]
    · simp only [if_neg h]
      have hlen : (st ++ [e]).length = st.length + 1 := by simp
      refine ⟨by omega, List.suffix_refl _, ?_⟩
      intro h20
      exfalso
      omega
  · intro mem m hmem
    unfold push_memory
    by_cases h : mem.length ≥ 10
    · have h10 : mem.length = 10 := by omega
      simp only [if_pos h]
      refine ⟨?_, fun _ => by simp, fun hlt => by omega⟩
      cases mem with
      | nil => simp at h10
      | cons a t => simp [List.length_drop] at *; omega
    · simp only [if_neg h]
      refine ⟨by simp; omega, fun h10 => by omega, fun _ => by simp⟩

/-- Witness for the amended C9 at full buffers: a 20-entry short-term
memory stays at 20 entries, and a 10-entry session memory stays at 10. -/
theorem short_term_memory_capacities_witness :
    (add_short_term (List.replicate 20 "a") "b").length ≤ 20 ∧
    (push_memory (List.replicate 10 ⟨"user", "hi"⟩) ⟨"assistant", "ok"⟩).length ≤ 10 :=
  ⟨(short_term_memory_capacities.1 (List.replicate 20 "a") "b" (by simp)).1,
   (short_term_memory_capacities.2 (List.replicate 10 ⟨"user", "hi"⟩)
     ⟨"assistant", "ok"⟩ (by simp)).1⟩

/-! ## src/main.rs : guard_command and run_and_capture

`guard_command` (src/main.rs:716-779) returns Ok immediately in
unsafe mode; otherwise it rejects programs equal to a denylist entry,
gates destructive `rm` flags behind an interactive confirmation when
`ask_before_destructive` is configured, and finally requires the program
to be in an allowlist.  `run_and_capture` (src/main.rs:2079-2190) calls
`guard_command` before spawning, streams the output lines, and trims the
combined tail to its last 4000 bytes. -/

/-- A command to execute (src/main.rs:795-802; `workdir`, `env` and
`log_path` do not affect the guarded behaviour modelled here). -/
structure CommandSpec where
  cmd : String
  args : List String
deriving DecidableEq

/-- The denylist of `guard_command` (src/main.rs:723-734). -/
def mainDenylist : List String :=
  ["rm", "sudo", "shutdown", "reboot", "poweroff", "halt", "ifconfig", "ip",
   "iptables", "systemctl"]

/-- The allowlist of `guard_command` (src/main.rs:766-770). -/
def mainAllowlist : List String :=
  ["cargo", "npm", "pnpm", "yarn", "go", "mvn", "pytest", "black", "gofmt",
   "clang", "gcc", "make", "git", "rg", "grep", "npx", "python", "node",
   "bash", "sh", "zsh", "fish", "ls", "cat", "echo", "pwd", "whoami"]

/-- Errors raised by `guard_command` and `run_and_capture`. -/
inductive CmdErr where
  /-- "Command cmd is denied by safety guardrails". -/
  | deniedByGuardrails (cmd : String)
  /-- "Destructive rm command aborted by user". -/
  | destructiveAborted
  /-- "Command cmd is not in the allowlist". -/
  | notAllowlisted (cmd : String)
  /-- "Failed to spawn command". -/
  | spawnFailed
deriving DecidableEq

/-- Model of `guard_command` (src/main.rs:716-779).  `cfg` is the global
`CONFIG` cell: `none` when unset, otherwise `some ask_before_destructive`;
`confirm` is the interactive answer to the destructive prompt. -/
def guard_command (unsafeMode : Bool) (cfg : Option Bool) (confirm : Bool)
    (spec : CommandSpec) : Except CmdErr Unit :=
  if unsafeMode then .ok ()
  else if mainDenylist.any (fun d => spec.cmd == d) then
    .error (.deniedByGuardrails spec.cmd)
  else if (spec.cmd == "rm" &&
      spec.args.any (fun a => strContains a.toList "-rf".toList ||
        a == "-r" || a == "-f")) && cfg.getD false && !confirm then
    .error .destructiveAborted
  else if mainAllowlist.any (fun a => spec.cmd == a) then .ok ()
  else .error (.notAllowlisted spec.cmd)

/-- The fields of `RunResult` (src/main.rs:787-793) that the claims speak
about. -/
structure RunResultM where
  exitCode : Int
  logTail : List Char
deriving DecidableEq

/-- The combined stream: each captured stdout/stderr line followed by a
newline, in arrival order (src/main.rs:2140-2173). -/
def combineLines (lines : List (List Char)) : List Char :=
  (lines.map (fun l => l ++ ['\n'])).flatten

/-- The final trim of `combined_tail` (src/main.rs:2178-2181): keep only
the last 4000 bytes. -/
def trimTail (s : List Char) : List Char :=
  if s.length > 4000 then s.drop (s.length - 4000) else s

/-- Model of `run_and_capture` (src/main.rs:2079-2190): guardrails first,
then a single spawn whose streamed `lines` and exit code come from the
oracle.  The second component counts spawn attempts. -/
def run_and_capture (unsafeMode : Bool) (cfg : Option Bool) (confirm : Bool)
    (spec : CommandSpec) (spawnOk : Bool) (lines : List (List Char))
    (exitCode : Int) : Except CmdErr RunResultM × Nat :=
  match guard_command unsafeMode cfg confirm spec with
  | .error e => (.error e, 0)
  | .ok _ =>
    if spawnOk = false then (.error .spawnFailed, 1)
    else (.ok ⟨exitCode, trimTail (combineLines lines)⟩, 1)

/-! ## src/planner.rs : plans, canonical paths and the safety check

Paths are modelled as lists of components; `canon` is `canonicalize`
under the assumption that every component exists and none is a symlink
(`.` is skipped, `..` pops one component). -/

/-- A planned edit (src/planner.rs:361-365); the path is relative to the
project root. -/
structure EditPlan where
  path : List String
  intent : String
deriving DecidableEq

/-- `Action::Run` (src/planner.rs:367-384). -/
structure ActionRun where
  program : String
  args : List String
  workdir : Option (List String)
  logHint : Option String
  retries : Nat
  backoffMs : Nat
deriving DecidableEq

/-- `Signal` (src/planner.rs:386-391). -/
inductive Signal where
  | Retry
  | Abort
  | Continue
deriving DecidableEq

/-- The `Plan` record (src/planner.rs:343-359).  Note: it has `read`,
`edit`, `notes`, `actions`, `signal`, `error` — and no delete list. -/
structure Plan where
  read : List (List String)
  edit : List EditPlan
  notes : String
  actions : List ActionRun
  signal : Option Signal
  error : Option String
deriving DecidableEq

/-- One step of path canonicalization. -/
def canonStep (acc : List String) (part : String) : List String :=
  if part = "." then acc
  else if part = ".." then acc.dropLast
  else acc ++ [part]

/-- `Path::canonicalize` modelled on components (no symlinks). -/
def canon (parts : List String) : List String := parts.foldl canonStep []

/-- The paths `safety_check_plan` iterates over: `plan.read` chained with
the `edit` paths (src/planner.rs:1066). -/
def planPaths (plan : Plan) : List (List String) :=
  plan.read ++ plan.edit.map (fun e => e.path)

/-- The containment loop of `safety_check_plan` (src/planner.rs:1066-1074). -/
def checkPaths (rootCanon root : List String) :
    List (List String) → Except String Unit
  | [] => .ok ()
  | p :: rest =>
    if rootCanon.isPrefixOf (canon (root ++ p)) then checkPaths rootCanon root rest
    else .error "plan contains path outside project root"

/-- Model of `safety_check_plan` (src/planner.rs:1064-1076). -/
def safety_check_plan (root : List String) (plan : Plan) : Except String Unit :=
  checkPaths (canon root) root (planPaths plan)

/-! ## src/main.rs : the orchestrator's informational path and apply loop -/

/-- Byte length kept for one context file (src/main.rs:1768-1772): a file
longer than 20 KiB is truncated to 20480 bytes and the 18-byte marker
`"\n…(truncated)…"` is appended. -/
def truncLen (n : Nat) : Nat := if n > 20480 then 20480 + 18 else n

/-- The gathering loop of the informational path (src/main.rs:1764-1779)
over the readable picked files (sizes; `none` = unreadable, skipped).
A file is appended first and the loop breaks only after the running total
exceeds 80 KiB. -/
def gatherBlobs : List (Option Nat) → Nat → List Nat
  | [], _ => []
  | none :: rest, total => gatherBlobs rest total
  | some n :: rest, total =>
    let t := truncLen n
    if total + t > 81920 then [t] else t :: gatherBlobs rest (total + t)

/-- Context gathered for the LM summarizer: the source iterates over
`picked.iter().take(8)` with a zero running total. -/
def gatherContext (picked : List (Option Nat)) : List Nat :=
  gatherBlobs (picked.take 8) 0

/-- Externally visible effects of one `orchestrate` turn. -/
inductive Effect where
  /-- the informational summary was produced via the LM. -/
  | summarize
  /-- `fsutil::atomic_write(path, content)` plus the agent.log append. -/
  | write (path : List String) (content : List Char)
  /-- patch number `idx` exported into the patch dir. -/
  | exportPatch (idx : Nat)
  /-- `run_and_capture` invoked for an action's program. -/
  | runCmd (program : String) (args : List String)
deriving DecidableEq

/-- The proposal-collection loop (src/main.rs:1854-1919): every edit gets
an LM proposal before anything is applied; a failing LM call aborts the
turn (`bail!`) before any write. -/
def collectProposals (propose : EditPlan → Option (List Char)) :
    List EditPlan → Option (List (EditPlan × List Char))
  | [] => some []
  | ep :: rest =>
    match propose ep with
    | none => none
    | some c => (collectProposals propose rest).map (fun ps => (ep, c) :: ps)

/-- Effect trace of `orchestrate` (src/main.rs:1718-2024): the
informational branch when `edit` and `actions` are both empty; otherwise
collect proposals, apply each one (dry-run: skip; export-patch: numbered
patch starting at 1; otherwise atomic write of the proposed content at
`root.join(path)`), then run each action once.  No containment or
empty-content check appears anywhere on this path. -/
def orchestrate (root : List String) (plan : Plan)
    (propose : EditPlan → Option (List Char)) (dryRun exportPatch : Bool) :
    Except String (List Effect) :=
  if plan.edit.isEmpty && plan.actions.isEmpty then .ok [.summarize]
  else
    match collectProposals propose plan.edit with
    | none => .error "LLM failed"
    | some proposals =>
      .ok ((if dryRun then []
            else if exportPatch then
              (List.range proposals.length).map (fun i => Effect.exportPatch (i + 1))
            else proposals.map (fun pc => Effect.write (root ++ pc.1.path) pc.2)) ++
           (if dryRun then []
            else plan.actions.map (fun a => Effect.runCmd a.program a.args)))

/-! ## Theorems about run_and_capture, guard_command, the safety check
and the orchestrator -/

lemma trimTail_length_le (s : List Char) : (trimTail s).length ≤ 4000 := by
  unfold trimTail
  by_cases h : s.length > 4000
  · simp only [if_pos h, List.length_drop]
    omega
  · simp only [if_neg h]
    omega

lemma trimTail_suffix (s : List Char) : trimTail s <:+ s := by
  unfold trimTail
  by_cases h : s.length > 4000
  · simp only [if_pos h]
    exact List.drop_suffix _ _
  · simp only [if_neg h]
    exact List.suffix_refl _

/-- C6: every `RunResult` produced by `run_and_capture` has a `log_tail`
of at most 4096 bytes (the code keeps at most the last 4000), and that
tail is a trailing portion (suffix) of the captured combined output. -/
theorem run_result_log_tail (unsafeMode : Bool) (cfg : Option Bool)
    (confirm : Bool) (spec : CommandSpec) (spawnOk : Bool)
    (lines : List (List Char)) (exitCode : Int) (r : RunResultM) (n : Nat)
    (h : run_and_capture unsafeMode cfg confirm spec spawnOk lines exitCode =
      (.ok r, n)) :
    r.logTail.length ≤ 4096 ∧ r.logTail <:+ combineLines lines := by
  unfold run_and_capture at h
  cases hg : guard_command unsafeMode cfg confirm spec with
  | error e =>
    rw [hg] at h
    simp at h
  | ok u =>
    rw [hg] at h
    by_cases hs : spawnOk = false
    · rw [if_pos hs] at h
      simp at h
    · rw [if_neg hs] at h
      have hr : r = ⟨exitCode, trimTail (combineLines lines)⟩ := by
        have := congrArg Prod.fst h
        simpa using this.symm
      subst hr
      exact ⟨le_trans (trimTail_length_le _) (by omega), trimTail_suffix _⟩

/-- Witness for C6 on a concrete successful `cargo build` run. -/
theorem run_result_log_tail_witness :
    ∃ r, run_and_capture false none false ⟨"cargo", ["build"]⟩ true
        ["Compiling foo v0.1.0".toList] 0 = (.ok r, 1) ∧
      r.logTail.length ≤ 4096 ∧
      r.logTail <:+ combineLines ["Compiling foo v0.1.0".toList] :=
  ⟨_, rfl, run_result_log_tail false none false ⟨"cargo", ["build"]⟩ true
    ["Compiling foo v0.1.0".toList] 0 _ 1 rfl⟩

/-- Counterexample to C3: with `unsafe_mode` set, `guard_command` accepts
the denylisted program `rm`, and `run_and_capture` does spawn it (one
spawn attempt) — the denylist rejection is not unconditional. -/
theorem guard_command_unsafe_allows_denylisted :
    guard_command true none false ⟨"rm", ["-rf", "/"]⟩ = .ok () ∧
    run_and_capture true none false ⟨"rm", ["-rf", "/"]⟩ true [] 0 =
      (.ok ⟨0, []⟩, 1) :=
  ⟨rfl, rfl⟩

/-- C3 (amended): when `unsafe_mode` is NOT set, a command spec whose
program is in the denylist is rejected by `guard_command` before spawn
(zero spawn attempts, a PermissionDenied-style error naming the failing
program), and a program outside the allowlist is also rejected; with
`unsafe_mode` set, `guard_command` accepts everything. -/
theorem guard_command_enforcement (spec : CommandSpec) (cfg : Option Bool)
    (confirm : Bool) (spawnOk : Bool) (lines : List (List Char))
    (exitCode : Int) :
    (spec.cmd ∈ mainDenylist →
      guard_command false cfg confirm spec =
        .error (.deniedByGuardrails spec.cmd) ∧
      run_and_capture false cfg confirm spec spawnOk lines exitCode =
        (.error (.deniedByGuardrails spec.cmd), 0)) ∧
    (spec.cmd ∉ mainAllowlist →
      ∃ e, guard_command false cfg confirm spec = .error e) ∧
    guard_command true cfg confirm spec = .ok () := by
  refine ⟨?_, ?_, rfl⟩
  · intro hmem
    have hany : mainDenylist.any (fun d => spec.cmd == d) = true := by
      rw [List.any_eq_true]
      exact ⟨spec.cmd, hmem, by simp⟩
    have hg : guard_command false cfg confirm spec =
        .error (.deniedByGuardrails spec.cmd) := by
      unfold guard_command
      simp [hany]
    refine ⟨hg, ?_⟩
    unfold run_and_capture
    rw [hg]
  · intro hnot
    unfold guard_command
    rw [if_neg (by simp : ¬((false : Bool) = true))]
    by_cases hd : (mainDenylist.any (fun d => spec.cmd == d)) = true
    · rw [if_pos hd]
      exact ⟨_, rfl⟩
    · rw [if_neg hd]
      by_cases hdc : ((spec.cmd == "rm" &&
          spec.args.any (fun a => strContains a.toList "-rf".toList ||
            a == "-r" || a == "-f")) && cfg.getD false && !confirm) = true
      · rw [if_pos hdc]
        exact ⟨_, rfl⟩
      · rw [if_neg hdc]
        have hal : (mainAllowlist.any (fun a => spec.cmd == a)) = false := by
          rw [List.any_eq_false]
          intro a ha h
          exact hnot ((eq_of_beq h) ▸ ha)
        rw [if_neg (by rw [hal]; exact Bool.false_ne_true)]
        exact ⟨_, rfl⟩

/-- Witness for the amended C3: `rm` is denied and never spawned, and the
non-allowlisted `curl` is rejected, in the default (safe) mode. -/
theorem guard_command_enforcement_witness :
    (guard_command false none false ⟨"rm", ["-rf", "/tmp/x"]⟩ =
        .error (.deniedByGuardrails "rm") ∧
      run_and_capture false none false ⟨"rm", ["-rf", "/tmp/x"]⟩ true [] 0 =
        (.error (.deniedByGuardrails "rm"), 0)) ∧
    (∃ e, guard_command false none false ⟨"curl", ["http://x"]⟩ = .error e) :=
  ⟨(guard_command_enforcement ⟨"rm", ["-rf", "/tmp/x"]⟩ none false true [] 0).1
      (by decide),
   (guard_command_enforcement ⟨"curl", ["http://x"]⟩ none false true [] 0).2.1
      (by decide)⟩

lemma checkPaths_ok : ∀ (ps : List (List String)) (rootCanon root : List String),
    checkPaths rootCanon root ps = .ok () →
    ∀ p ∈ ps, rootCanon.isPrefixOf (canon (root ++ p)) = true := by
  intro ps
  induction ps with
  | nil => intro _ _ _ p hp; cases hp
  | cons q rest ih =>
    intro rc root h p hp
    unfold checkPaths at h
    by_cases hc : rc.isPrefixOf (canon (root ++ q)) = true
    · rw [if_pos hc] at h
      rcases List.mem_cons.mp hp with rfl | hmem
      · exact hc
      · exact ih rc root h p hmem
    · rw [if_neg (by simpa using hc)] at h
      cases h

/-- The plan used to exhibit the orchestrator's missing containment
check: a single edit whose path climbs out of the project root. -/
def escPlan : Plan := ⟨[], [⟨["..", "evil.txt"], "create"⟩], "", [], none, none⟩

/-- Counterexample to C2: the orchestrator (src/main.rs `orchestrate`)
never canonicalizes or containment-checks planned paths — it applies an
edit whose canonical target lies outside the root instead of rejecting
it before mutation. -/
theorem orchestrator_applies_escaping_path :
    (canon ["home", "proj"]).isPrefixOf
        (canon (["home", "proj"] ++ ["..", "evil.txt"])) = false ∧
    orchestrate ["home", "proj"] escPlan (fun _ => some "x".toList) false false =
      .ok [.write ["home", "proj", "..", "evil.txt"] "x".toList] :=
  ⟨rfl, rfl⟩

/-- The orchestrator's non-informational effect trace: every collected
proposal is written at `root.join(path)` and every action spawned, with
no filtering of any kind. -/
lemma orchestrate_write_trace (root : List String) (plan : Plan)
    (propose : EditPlan → Option (List Char))
    (proposals : List (EditPlan × List Char))
    (hcol : collectProposals propose plan.edit = some proposals)
    (hne : (plan.edit.isEmpty && plan.actions.isEmpty) = false) :
    orchestrate root plan propose false false =
      .ok (proposals.map (fun pc => Effect.write (root ++ pc.1.path) pc.2) ++
        plan.actions.map (fun a => Effect.runCmd a.program a.args)) := by
  unfold orchestrate
  rw [hne, hcol]
  simp

/-- C2 (amended): path containment is enforced only on the scheduler
path: a plan accepted by `safety_check_plan` has every `read` and `edit`
path canonicalizing inside the canonical root (the `Plan` type has no
delete list); the orchestrator's own apply loop instead writes every
proposed edit at `root.join(path)` unconditionally, with no containment
check. -/
theorem plan_path_containment (root : List String) (plan : Plan) :
    (safety_check_plan root plan = .ok () →
      ∀ p ∈ planPaths plan,
        (canon root).isPrefixOf (canon (root ++ p)) = true) ∧
    (∀ (propose : EditPlan → Option (List Char))
        (proposals : List (EditPlan × List Char)),
      collectProposals propose plan.edit = some proposals →
      (plan.edit.isEmpty && plan.actions.isEmpty) = false →
      orchestrate root plan propose false false =
        .ok (proposals.map (fun pc => Effect.write (root ++ pc.1.path) pc.2) ++
          plan.actions.map (fun a => Effect.runCmd a.program a.args))) := by
  constructor
  · intro h
    exact checkPaths_ok _ _ _ h
  · intro propose proposals hcol hne
    exact orchestrate_write_trace root plan propose proposals hcol hne

/-- A well-contained single-edit plan for the C2 witness. -/
def onePlan : Plan := ⟨[["README.md"]], [⟨["src", "a.rs"], "touch"⟩], "", [], none, none⟩

/-- Witness for the amended C2: a contained plan passes the safety check
and the orchestrator's write trace is exactly the joined edit paths. -/
theorem plan_path_containment_witness :
    (canon ["r"]).isPrefixOf (canon (["r"] ++ ["README.md"])) = true ∧
    orchestrate ["r"] onePlan (fun _ => some "y".toList) false false =
      .ok [.write ["r", "src", "a.rs"] "y".toList] :=
  ⟨(plan_path_containment ["r"] onePlan).1 rfl ["README.md"] (by decide),
   by
    have := (plan_path_containment ["r"] onePlan).2 (fun _ => some "y".toList)
      [(⟨["src", "a.rs"], "touch"⟩, "y".toList)] rfl rfl
    simpa [onePlan] using this⟩

lemma truncLen_le (n : Nat) : truncLen n ≤ 20498 := by
  unfold truncLen
  by_cases h : n > 20480
  · simp [h]
  · simp only [if_neg h]
    omega

lemma gatherBlobs_length : ∀ (l : List (Option Nat)) (total : Nat),
    (gatherBlobs l total).length ≤ l.length := by
  intro l
  induction l with
  | nil => intro total; simp [gatherBlobs]
  | cons o rest ih =>
    intro total
    cases o with
    | none =>
      simp only [gatherBlobs, List.length_cons]
      exact le_trans (ih total) (Nat.le_succ _)
    | some n =>
      simp only [gatherBlobs, List.length_cons]
      by_cases h : total + truncLen n > 81920
      · simp only [if_pos h, List.length_singleton]
        omega
      · simp only [if_neg h, List.length_cons]
        exact Nat.succ_le_succ (ih _)

lemma gatherBlobs_mem_le : ∀ (l : List (Option Nat)) (total : Nat),
    ∀ t ∈ gatherBlobs l total, t ≤ 20498 := by
  intro l
  induction l with
  | nil => intro total t ht; cases ht
  | cons o rest ih =>
    intro total t ht
    cases o with
    | none => exact ih total t ht
    | some n =>
      simp only [gatherBlobs] at ht
      by_cases h : total + truncLen n > 81920
      · rw [if_pos h] at ht
        rcases List.mem_singleton.mp ht with rfl
        exact truncLen_le n
      · rw [if_neg h] at ht
        rcases List.mem_cons.mp ht with rfl | hmem
        · exact truncLen_le n
        · exact ih _ t hmem

lemma gatherBlobs_sum : ∀ (l : List (Option Nat)) (total : Nat),
    total ≤ 81920 → total + (gatherBlobs l total).sum ≤ 102418 := by
  intro l
  induction l with
  | nil => intro total h; simp [gatherBlobs]; omega
  | cons o rest ih =>
    intro total h
    cases o with
    | none => simpa [gatherBlobs] using ih total h
    | some n =>
      have ht := truncLen_le n
      simp only [gatherBlobs]
      by_cases hb : total + truncLen n > 81920
      · simp only [if_pos hb, List.sum_cons, List.sum_nil]
        omega
      · simp only [if_neg hb, List.sum_cons]
        have := ih (total + truncLen n) (by omega)
        omega

/-- Counterexample to C5's size caps: a 30000-byte file is kept at 20498
bytes (20 KiB of content plus the 18-byte truncation marker, exceeding
20 KiB), and five 20480-byte files gather to 102400 bytes total, well
over the claimed 80 KiB (81920) cap. -/
theorem summary_caps_exceeded :
    truncLen 30000 = 20498 ∧ 20480 < 20498 ∧
    (gatherContext (List.replicate 5 (some 20480))).sum = 102400 ∧
    81920 < 102400 := by
  refine ⟨rfl, by omega, ?_, by omega⟩
  rfl

/-- C5 (amended): a validated plan with empty `edit` and empty `actions`
takes the informational summary path (no writes, no patch exports, no
commands — just the summary), and the gathered context comprises at most
8 files, each kept at no more than 20480 + 18 bytes, with a total of at
most 81920 + 20498 bytes (the loop stops only after the running total
first exceeds 80 KiB). -/
theorem informational_summary_caps (root : List String) (plan : Plan)
    (propose : EditPlan → Option (List Char)) (dryRun exportPatch : Bool)
    (picked : List (Option Nat)) (h1 : plan.edit = []) (h2 : plan.actions = []) :
    orchestrate root plan propose dryRun exportPatch = .ok [.summarize] ∧
    (gatherContext picked).length ≤ 8 ∧
    (∀ t ∈ gatherContext picked, t ≤ 20498) ∧
    (gatherContext picked).sum ≤ 102418 := by
  refine ⟨?_, ?_, ?_, ?_⟩
  · unfold orchestrate
    simp [h1, h2]
  · unfold gatherContext
    exact le_trans (gatherBlobs_length _ 0)
      (le_trans (Nat.le_of_eq (List.length_take _ _)) (Nat.min_le_left _ _))
  · exact gatherBlobs_mem_le _ 0
  · have := gatherBlobs_sum (picked.take 8) 0 (by omega)
    simpa [gatherContext] using this

/-- The empty plan used for the C5 witness. -/
def emptyPlan : Plan := ⟨[], [], "", [], none, none⟩

/-- Witness for the amended C5 on an empty plan and one readable file. -/
theorem informational_summary_caps_witness :
    orchestrate [] emptyPlan (fun _ => none) false false = .ok [.summarize] ∧
    (gatherContext [some 100]).sum ≤ 102418 :=
  ⟨(informational_summary_caps [] emptyPlan (fun _ => none) false false
      [some 100] rfl rfl).1,
   (informational_summary_caps [] emptyPlan (fun _ => none) false false
      [some 100] rfl rfl).2.2.2⟩

lemma collectProposals_mem :
    ∀ (l : List EditPlan) (propose : EditPlan → Option (List Char))
      (ps : List (EditPlan × List Char)),
    collectProposals propose l = some ps →
    ∀ ep ∈ l, ∀ c, propose ep = some c → (ep, c) ∈ ps := by
  intro l
  induction l with
  | nil => intro _ _ _ ep hep; cases hep
  | cons e rest ih =>
    intro propose ps h ep hep c hc
    unfold collectProposals at h
    cases hpe : propose e with
    | none => rw [hpe] at h; cases h
    | some ce =>
      rw [hpe] at h
      cases hrest : collectProposals propose rest with
      | none => rw [hrest] at h; cases h
      | some ps' =>
        rw [hrest] at h
        simp only [Option.map_some] at h
        cases h
        rcases List.mem_cons.mp hep with rfl | hmem
        · have : c = ce := by rw [hpe] at hc; exact (Option.some.inj hc).symm
          subst this
          exact List.mem_cons_self _ _
        · exact List.mem_cons_of_mem _ (ih propose ps' hrest ep hmem c hc)

/-- The single-edit plan used to exhibit the missing empty-content check. -/
def epPlan : Plan := ⟨[], [⟨["src", "lib.rs"], "fill"⟩], "", [], none, none⟩

/-- Counterexample to C7: when the LM proposes empty content, the
orchestrator does not reject it — the empty string is atomically written
over the target file. -/
theorem empty_proposal_written :
    orchestrate ["r"] epPlan (fun _ => some []) false false =
      .ok [.write ["r", "src", "lib.rs"] []] :=
  rfl

/-- C7 (amended): the edit proposer performs no empty-content check: a
planned edit whose proposed content is empty is applied exactly like any
other proposal — the write of the empty content at `root.join(path)`
appears in the orchestrator's effect trace. -/
theorem empty_proposal_not_rejected (root : List String) (plan : Plan)
    (propose : EditPlan → Option (List Char))
    (proposals : List (EditPlan × List Char))
    (hcol : collectProposals propose plan.edit = some proposals)
    (ep : EditPlan) (hmem : ep ∈ plan.edit) (hemp : propose ep = some []) :
    ∃ effects, orchestrate root plan propose false false = .ok effects ∧
      Effect.write (root ++ ep.path) [] ∈ effects := by
  have hne : (plan.edit.isEmpty && plan.actions.isEmpty) = false := by
    cases he : plan.edit with
    | nil => rw [he] at hmem; cases hmem
    | cons a t => simp [he]
  refine ⟨_, orchestrate_write_trace root plan propose proposals hcol hne, ?_⟩
  apply List.mem_append_left
  have hp : (ep, ([] : List Char)) ∈ proposals :=
    collectProposals_mem plan.edit propose proposals hcol ep hmem [] hemp
  exact List.mem_map_of_mem _ hp

/-- Witness for the amended C7: the concrete empty proposal produces a
write of empty content at the joined path. -/
theorem empty_proposal_not_rejected_witness :
    ∃ effects, orchestrate ["r"] epPlan (fun _ => some []) false false =
        .ok effects ∧
      Effect.write (["r"] ++ ["src", "lib.rs"]) [] ∈ effects :=
  empty_proposal_not_rejected ["r"] epPlan (fun _ => some [])
    [(⟨["src", "lib.rs"], "fill"⟩, [])] rfl ⟨["src", "lib.rs"], "fill"⟩
    (by decide) rfl

end Shellcraft
